import Mathlib

/-!
Verification of the VRF poker game (`src/main.rs`).

The Rust program lets each `Player` draw a verifiable pseudorandom card per
round: `draw_card` calls `vrf_sign` of the VRF engine on a domain-separated
commitment input and stores the `(output, proof)` pair, `reveal_card` maps the
first 8 bytes of the stored output (little-endian `u64`, reduced mod 52) to a
card value, and `verify_card` checks the stored pair against a supplied input
with the public key of the player.  `main` runs 10 rounds over a map of players,
building the commitment string `"poker_game{round}"` and picking the winner by
`max_by_key` over `reveal_card().unwrap_or(0)`.

The VRF primitive itself (schnorrkel) is an external capability; it is
modelled here from the sign/verify contract the specification states, while
the `Player` methods and the round logic of `main` are translated directly from
the source.
-/

namespace PokerVRF

/-- Bytes are modelled as natural numbers (meaningful values are `< 256`). -/
abbrev Byte := Nat

/-- The domain-separation context `b"example"` from the source
(`const CONTEXT: &[u8] = b"example";`), as its ASCII byte values. -/
def CONTEXT : List Byte := [101, 120, 97, 109, 112, 108, 101]

/-- A signing transcript: the pair of the domain-separation context and the
message bytes.  Models the Rust value `signing_context(CONTEXT).bytes(input)`,
which binds both the context and the input into the VRF computation. -/
structure Transcript where
  ctx : List Byte
  msg : List Byte
deriving DecidableEq

/-- Models `signing_context(ctx).bytes(msg)`. -/
def signing_context_bytes (ctx msg : List Byte) : Transcript := ⟨ctx, msg⟩

/-- Modelled from the spec: the public half of a key pair.  The spec treats
keys as opaque and only requires the sign/verify pairing to be sound, so the
model identifies the public key with the secret scalar (an injective
derivation suffices). -/
def publicKey (sk : Nat) : Nat := sk

/-- Modelled from the spec: the output bytes of the VRF engine, a
deterministic function of the key and the transcript, serialised at the fixed
engine width of 32 bytes (`output.to_bytes()` of the schnorrkel `VRFOutput`). -/
def vrfOutputBytes (sk : Nat) (t : Transcript) : List Byte :=
  (List.range 32).map (fun i =>
    (sk + 131 * i
      + t.ctx.foldl (fun a b => 31 * a + b) 3
      + t.msg.foldl (fun a b => 31 * a + b) 7) % 256)

/-- The VRF input/output record stored by a player (`VRFInOut`); only its
serialised output bytes are relevant to the game. -/
structure VRFInOut where
  output_bytes : List Byte
deriving DecidableEq

/-- Modelled from the spec: a VRF proof.  The contract in the spec is that
verification succeeds exactly when the proof was produced by `sign` with the
matching private key and transcript, so the model proof records that pair. -/
structure VRFProof where
  sk : Nat
  transcript : Transcript
deriving DecidableEq

/-- Modelled from the spec: `sign(private_key, input) -> (output, proof)`,
deterministic per `(key, input)` (`keypair.vrf_sign(...)` in the source). -/
def vrf_sign (sk : Nat) (t : Transcript) : VRFInOut × VRFProof :=
  (⟨vrfOutputBytes sk t⟩, ⟨sk, t⟩)

/-- The public pre-output commitment form of a VRF output
(`output.to_preout()`): here, its serialised bytes. -/
def VRFInOut.to_preout (o : VRFInOut) : List Byte := o.output_bytes

/-- Modelled from the spec: `verify(public_key, input, output_commitment,
proof) -> bool`; never throws, true exactly when the proof was produced by
`sign` under the matching key and transcript and the commitment is the
genuine output (`public.vrf_verify(...).is_ok()` in the source). -/
def vrf_verify (pk : Nat) (t : Transcript) (preout : List Byte)
    (proof : VRFProof) : Bool :=
  pk == publicKey proof.sk && t == proof.transcript
    && preout == (vrf_sign proof.sk proof.transcript).1.to_preout

/-- The `Player` struct: a key pair (modelled by its secret scalar) and the
optional per-round VRF artifacts. -/
structure Player where
  keypair : Nat
  vrf_output : Option VRFInOut
  vrf_proof : Option VRFProof
deriving DecidableEq

/-- Rust `Player::new()`: key generation is external (`OsRng`), so the fresh
player is parametrised by the generated secret; both VRF fields start empty. -/
def Player.new (sk : Nat) : Player :=
  { keypair := sk, vrf_output := none, vrf_proof := none }

/-- Rust `Player::draw_card(&mut self, input)`: signs the transcript
`signing_context(CONTEXT).bytes(input)` and overwrites both VRF fields. -/
def Player.draw_card (p : Player) (input : List Byte) : Player :=
  let r := vrf_sign p.keypair (signing_context_bytes CONTEXT input)
  { p with vrf_output := some r.1, vrf_proof := some r.2 }

/-- Rust `u64::from_le_bytes` on a byte list: little-endian base-256 value.  (On a
list of 8 bytes this is `< 2^64`, so no wraparound is possible.) -/
def u64_from_le_bytes (bs : List Byte) : Nat :=
  bs.foldr (fun b acc => b + 256 * acc) 0

/-- Rust `Player::reveal_card(&self) -> Option<u8>`: if an output is stored,
serialise it, return `none` when fewer than 8 bytes are available, otherwise
the first 8 bytes as a little-endian `u64` reduced mod 52 (the final
`as u8` cast is lossless since the value is `< 52`). -/
def Player.reveal_card (p : Player) : Option Nat :=
  p.vrf_output.bind (fun output =>
    let hash := output.output_bytes
    if hash.length < 8 then none
    else some (u64_from_le_bytes (hash.take 8) % 52))

/-- Rust `Player::verify_card(&self, input) -> bool`: false unless both VRF fields
are present, otherwise the verdict of the engine on (public key, transcript,
pre-output commitment, proof). -/
def Player.verify_card (p : Player) (input : List Byte) : Bool :=
  match p.vrf_output, p.vrf_proof with
  | some output, some proof =>
      vrf_verify (publicKey p.keypair) (signing_context_bytes CONTEXT input)
        output.to_preout proof
  | _, _ => false

/-- The commitment input for a round:
`format!("poker_game{}", round)`, viewed as its character codes
(all characters are ASCII, so these are exactly `as_bytes()`). -/
def buildCommitment (round : Nat) : List Byte :=
  ("poker_game" ++ toString round).data.map Char.toNat

/-- Rust `Iterator::max_by_key`: `none` on an empty iterator, otherwise the
last element whose key attains the maximum. -/
def maxByKey {α : Type} (key : α → Nat) : List α → Option α
  | [] => none
  | x :: xs =>
    match maxByKey key xs with
    | none => some x
    | some y => if key x > key y then some x else some y

/-- The winner selection in `main`:
`players.iter().max_by_key(|&(_, player)| player.reveal_card().unwrap_or(0))`,
over the players in some iteration order. -/
def selectWinner (ps : List (String × Player)) : Option (String × Player) :=
  maxByKey (fun np => (np.2.reveal_card).getD 0) ps

/-- The operations a caller can perform on a `Player`. -/
inductive Op where
  | draw (input : List Byte)
  | reveal
  | verify (input : List Byte)

/-- The observable outcome of one operation. -/
inductive Outcome where
  | unit
  | card (c : Option Nat)
  | valid (b : Bool)
deriving DecidableEq

/-- One method call on a player: `draw_card` takes `&mut self` and updates
the state; `reveal_card` and `verify_card` take `&self`, so the post-state is
the pre-state and only a value is returned. -/
def step (op : Op) (p : Player) : Player × Outcome :=
  match op with
  | .draw input => (p.draw_card input, .unit)
  | .reveal => (p, .card p.reveal_card)
  | .verify input => (p, .valid (p.verify_card input))

/-- Running a sequence of method calls, collecting the outcomes. -/
def run : List Op → Player → Player × List Outcome
  | [], p => (p, [])
  | op :: ops, p =>
    let r := step op p
    let r' := run ops r.1
    (r'.1, r.2 :: r'.2)

end PokerVRF

namespace PokerVRF

/-- C1: for every player and every input, `draw_card(input)` followed by
`verify_card(input)` with the same input returns true: the stored
output/proof pair produced by the engine sign operation verifies under the own
public key of the player and the same commitment input. -/
theorem draw_then_verify_same_input (p : Player) (input : List Byte) :
    (p.draw_card input).verify_card input = true := by
  simp [Player.draw_card, Player.verify_card, vrf_sign, vrf_verify,
    VRFInOut.to_preout, publicKey]

/-- C5: a freshly constructed player reveals no card and never verifies, for
every generated key and every input; both queries are total functions. -/
theorem fresh_player_no_reveal_no_verify (sk : Nat) (input : List Byte) :
    (Player.new sk).reveal_card = none
      ∧ (Player.new sk).verify_card input = false := by
  constructor <;> rfl

/-- C2: for every player and all distinct inputs, `draw_card(inputA)`
followed by `verify_card(inputB)` returns false: the stored proof is bound
to the transcript of the input it was drawn with. -/
theorem draw_then_verify_other_input (p : Player) (a b : List Byte)
    (h : a ≠ b) : (p.draw_card a).verify_card b = false := by
  simp [Player.draw_card, Player.verify_card, vrf_sign, vrf_verify,
    VRFInOut.to_preout, publicKey, signing_context_bytes]
  intro hb
  exact h hb.symm

/-- Witness for C2 at concrete inputs. -/
theorem draw_then_verify_other_input_witness :
    ([1] : List Byte) ≠ [2]
      ∧ ((Player.new 0).draw_card [1]).verify_card [2] = false :=
  ⟨by decide, draw_then_verify_other_input (Player.new 0) [1] [2] (by decide)⟩

/-- The engine output serialises at a fixed width of 32 bytes. -/
lemma vrfOutputBytes_length (sk : Nat) (t : Transcript) :
    (vrfOutputBytes sk t).length = 32 := by
  simp [vrfOutputBytes]

/-- C4: after a draw, `reveal_card` returns exactly the first 8 bytes of the
stored VRF output interpreted as a little-endian unsigned 64-bit integer
reduced modulo 52; consequently the revealed value lies in `[0, 52)`. -/
theorem draw_then_reveal_formula (p : Player) (input : List Byte) :
    ∃ o c, (p.draw_card input).vrf_output = some o
      ∧ (p.draw_card input).reveal_card = some c
      ∧ c = u64_from_le_bytes (o.output_bytes.take 8) % 52
      ∧ c < 52 := by
  refine ⟨⟨vrfOutputBytes p.keypair (signing_context_bytes CONTEXT input)⟩,
    u64_from_le_bytes ((vrfOutputBytes p.keypair
      (signing_context_bytes CONTEXT input)).take 8) % 52, rfl, ?_, rfl, ?_⟩
  · simp [Player.draw_card, Player.reveal_card, vrf_sign, vrfOutputBytes_length]
  · exact Nat.mod_lt _ (by omega)

/-- C10: whenever the stored VRF output (as after any draw) serialises to at
least 8 bytes — the fixed engine width is 32 — the fewer-than-8-bytes
defensive branch of `reveal_card` is not taken: the card is present and the
slice of the first 8 bytes has exactly the 8 elements the fixed-size
conversion needs. -/
theorem reveal_defensive_branch_unreachable (p : Player) (input : List Byte)
    (o : VRFInOut) (ho : (p.draw_card input).vrf_output = some o)
    (hw : 8 ≤ o.output_bytes.length) :
    ¬ o.output_bytes.length < 8
      ∧ (p.draw_card input).reveal_card
          = some (u64_from_le_bytes (o.output_bytes.take 8) % 52)
      ∧ (o.output_bytes.take 8).length = 8 := by
  refine ⟨Nat.not_lt.mpr hw, ?_, ?_⟩
  · simp [Player.reveal_card, ho, Nat.not_lt.mpr hw]
  · simp [List.length_take, Nat.min_eq_left hw]

/-- Witness for C10 at a concrete drawn player. -/
theorem reveal_defensive_branch_unreachable_witness :
    ((Player.new 0).draw_card []).vrf_output
        = some ⟨vrfOutputBytes 0 (signing_context_bytes CONTEXT [])⟩
      ∧ 8 ≤ (vrfOutputBytes 0 (signing_context_bytes CONTEXT [])).length
      ∧ (¬ (vrfOutputBytes 0 (signing_context_bytes CONTEXT [])).length < 8
        ∧ ((Player.new 0).draw_card []).reveal_card
            = some (u64_from_le_bytes
                ((vrfOutputBytes 0 (signing_context_bytes CONTEXT [])).take 8) % 52)
        ∧ ((vrfOutputBytes 0 (signing_context_bytes CONTEXT [])).take 8).length = 8) :=
  ⟨rfl, by decide,
    reveal_defensive_branch_unreachable (Player.new 0) [] _ rfl (by decide)⟩

/-- Running any call sequence preserves the output/proof pairing invariant. -/
lemma run_preserves_paired (ops : List Op) (p : Player)
    (h : p.vrf_output.isSome = p.vrf_proof.isSome) :
    ((run ops p).1.vrf_output).isSome = ((run ops p).1.vrf_proof).isSome := by
  induction ops generalizing p with
  | nil => exact h
  | cons op ops ih =>
    cases op with
    | draw input => exact ih (p.draw_card input) (by simp [Player.draw_card])
    | reveal => exact ih p h
    | verify input => exact ih p h

/-- C7: every player state reachable from `Player::new` through the public
operations (`draw_card`, `reveal_card`, `verify_card`) keeps `vrf_output`
and `vrf_proof` both present or both absent. -/
theorem reachable_output_proof_paired (sk : Nat) (ops : List Op) :
    ((run ops (Player.new sk)).1.vrf_output).isSome
      = ((run ops (Player.new sk)).1.vrf_proof).isSome :=
  run_preserves_paired ops (Player.new sk) rfl

/-- C8: `verify_card` is deterministic and idempotent: any number of repeated
calls with the same input on a player in a fixed state after one draw all
return the same boolean. -/
theorem verify_card_deterministic_idempotent (p : Player)
    (d input : List Byte) (k : Nat) :
    (run (List.replicate k (Op.verify input)) (p.draw_card d)).2
      = List.replicate k (Outcome.valid ((p.draw_card d).verify_card input)) := by
  generalize p.draw_card d = q
  induction k with
  | zero => rfl
  | succ k ih => simp [List.replicate_succ, run, step, ih]

/-- C9: `reveal_card` and `verify_card` leave the player state entirely
unchanged — keypair, `vrf_output` and `vrf_proof` are identical before and
after the call (both methods borrow `&self` immutably). -/
theorem reveal_verify_leave_state_unchanged (p : Player) (input : List Byte) :
    (step Op.reveal p).1.keypair = p.keypair
      ∧ (step Op.reveal p).1.vrf_output = p.vrf_output
      ∧ (step Op.reveal p).1.vrf_proof = p.vrf_proof
      ∧ (step (Op.verify input) p).1.keypair = p.keypair
      ∧ (step (Op.verify input) p).1.vrf_output = p.vrf_output
      ∧ (step (Op.verify input) p).1.vrf_proof = p.vrf_proof :=
  ⟨rfl, rfl, rfl, rfl, rfl, rfl⟩

lemma maxByKey_ne_none {α : Type} (key : α → Nat) (x : α) (xs : List α) :
    maxByKey key (x :: xs) ≠ none := by
  simp only [maxByKey]
  cases maxByKey key xs with
  | none => simp
  | some y => by_cases h : key x > key y <;> simp [h]

lemma maxByKey_mem_le {α : Type} (key : α → Nat) :
    ∀ (l : List α) (w : α), maxByKey key l = some w →
      w ∈ l ∧ ∀ q ∈ l, key q ≤ key w := by
  intro l
  induction l with
  | nil => intro w h; simp [maxByKey] at h
  | cons x xs ih =>
    intro w h
    simp only [maxByKey] at h
    cases hx : maxByKey key xs with
    | none =>
      rw [hx] at h
      cases xs with
      | nil =>
        cases h
        exact ⟨List.mem_singleton_self x, by intro q hq; simp at hq; simp [hq]⟩
      | cons a as => exact absurd hx (maxByKey_ne_none key a as)
    | some y =>
      rw [hx] at h
      dsimp only at h
      obtain ⟨hy, hley⟩ := ih y hx
      by_cases hk : key x > key y
      · rw [if_pos hk] at h
        cases h
        refine ⟨List.mem_cons_self .., ?_⟩
        intro q hq
        rcases List.mem_cons.mp hq with hq | hq
        · simp [hq]
        · exact Nat.le_trans (hley q hq) (Nat.le_of_lt hk)
      · rw [if_neg hk] at h
        cases h
        refine ⟨List.mem_cons_of_mem x hy, ?_⟩
        intro q hq
        rcases List.mem_cons.mp hq with hq | hq
        · exact hq ▸ Nat.le_of_not_lt hk
        · exact hley q hq

/-- C3: for any nonempty iteration order over the players, the winner
selection returns a player, that player is among the players, and their
revealed card value — with a missing reveal counted as 0 via
`unwrap_or(0)` — is the maximum over all players. -/
theorem selectWinner_picks_maximum (ps : List (String × Player))
    (h : ps ≠ []) :
    ∃ w, selectWinner ps = some w ∧ w ∈ ps
      ∧ ∀ q ∈ ps, (q.2.reveal_card).getD 0 ≤ (w.2.reveal_card).getD 0 := by
  cases hs : selectWinner ps with
  | none =>
    cases ps with
    | nil => exact absurd rfl h
    | cons x xs => exact absurd hs (maxByKey_ne_none _ x xs)
  | some w =>
    obtain ⟨hmem, hle⟩ := maxByKey_mem_le _ ps w hs
    exact ⟨w, rfl, hmem, hle⟩

/-- Witness for C3 on a concrete two-player table. -/
theorem selectWinner_picks_maximum_witness :
    ([("Alice", Player.new 0), ("Bob", Player.new 1)]
        : List (String × Player)) ≠ []
      ∧ ∃ w, selectWinner [("Alice", Player.new 0), ("Bob", Player.new 1)]
            = some w
          ∧ w ∈ [("Alice", Player.new 0), ("Bob", Player.new 1)]
          ∧ ∀ q ∈ [("Alice", Player.new 0), ("Bob", Player.new 1)],
              (q.2.reveal_card).getD 0 ≤ (w.2.reveal_card).getD 0 :=
  ⟨by simp, selectWinner_picks_maximum _ (by simp)⟩

/-- Fuel-free reference form of the decimal digit characters of a natural
number, used to reason about the fuelled `Nat.toDigitsCore` from core. -/
def decChars (n : Nat) : List Char :=
  if n < 10 then [Nat.digitChar n]
  else decChars (n / 10) ++ [Nat.digitChar (n % 10)]
decreasing_by exact Nat.div_lt_self (by omega) (by omega)

lemma toDigitsCore_eq_decChars :
    ∀ (f n : Nat), n < f → ∀ (acc : List Char),
      Nat.toDigitsCore 10 f n acc = decChars n ++ acc := by
  intro f
  induction f with
  | zero => intro n h; omega
  | succ f ih =>
    intro n h acc
    simp only [Nat.toDigitsCore]
    by_cases h0 : n / 10 = 0
    · have hn : n < 10 := (Nat.div_eq_zero_iff (by omega)).mp h0
      rw [if_pos h0, decChars, if_pos hn, Nat.mod_eq_of_lt hn]
      rfl
    · have hn0 : 0 < n := by
        rcases Nat.eq_zero_or_pos n with h' | h'
        · subst h'; simp at h0
        · exact h'
      have hlt : n / 10 < f :=
        Nat.lt_of_lt_of_le (Nat.div_lt_self hn0 (by omega)) (by omega)
      have hge : ¬ n < 10 := fun hl => h0 ((Nat.div_eq_zero_iff (by omega)).mpr hl)
      rw [if_neg h0, ih (n / 10) hlt]
      conv_rhs => rw [decChars, if_neg hge]
      simp

lemma toDigits_eq_decChars (n : Nat) : Nat.toDigits 10 n = decChars n := by
  have h := toDigitsCore_eq_decChars (n + 1) n (by omega) []
  simpa [Nat.toDigits] using h

lemma digitChar_inj_fin : ∀ a b : Fin 10,
    Nat.digitChar a = Nat.digitChar b → a = b := by decide

lemma digitChar_lt_inj {a b : Nat} (ha : a < 10) (hb : b < 10)
    (h : Nat.digitChar a = Nat.digitChar b) : a = b := by
  have := digitChar_inj_fin ⟨a, ha⟩ ⟨b, hb⟩ h
  simpa using congrArg Fin.val this

lemma decChars_ne_nil (n : Nat) : decChars n ≠ [] := by
  rw [decChars]
  split <;> simp

lemma decChars_of_lt {n : Nat} (h : n < 10) :
    decChars n = [Nat.digitChar n] := by
  rw [decChars, if_pos h]

lemma decChars_of_ge {n : Nat} (h : ¬ n < 10) :
    decChars n = decChars (n / 10) ++ [Nat.digitChar (n % 10)] := by
  rw [decChars, if_neg h]

lemma decChars_injective : ∀ n m : Nat, decChars n = decChars m → n = m := by
  intro n
  induction n using Nat.strong_induction_on with
  | _ n ih =>
    intro m h
    by_cases hn : n < 10 <;> by_cases hm : m < 10
    · rw [decChars_of_lt hn, decChars_of_lt hm] at h
      exact digitChar_lt_inj hn hm (by simpa using h)
    · rw [decChars_of_lt hn, decChars_of_ge hm] at h
      have hlen := congrArg List.length h
      simp at hlen
      exact absurd hlen (decChars_ne_nil _)
    · rw [decChars_of_ge hn, decChars_of_lt hm] at h
      have hlen := congrArg List.length h
      simp at hlen
      exact absurd hlen (decChars_ne_nil _)
    · rw [decChars_of_ge hn, decChars_of_ge hm] at h
      obtain ⟨h1, h2⟩ := List.append_inj' h (by simp)
      have hd : n / 10 = m / 10 :=
        ih (n / 10) (Nat.div_lt_self (by omega) (by omega)) (m / 10) h1
      have hr : n % 10 = m % 10 :=
        digitChar_lt_inj (Nat.mod_lt _ (by omega)) (Nat.mod_lt _ (by omega))
          (by simpa using h2)
      omega

lemma nat_repr_injective {n m : Nat} (h : Nat.repr n = Nat.repr m) : n = m := by
  have h2 : Nat.toDigits 10 n = Nat.toDigits 10 m := by
    have := congrArg String.data h
    simpa [Nat.repr, List.asString] using this
  rw [toDigits_eq_decChars, toDigits_eq_decChars] at h2
  exact decChars_injective n m h2

lemma char_toNat_injective : Function.Injective Char.toNat := fun _ _ hab =>
  Char.ext (UInt32.toNat.inj hab)

/-- C6: the commitment-input construction is injective in the round number:
distinct rounds yield distinct commitment byte strings. -/
theorem buildCommitment_injective (n m : Nat) (h : n ≠ m) :
    buildCommitment n ≠ buildCommitment m := by
  intro he
  apply h
  unfold buildCommitment at he
  have hdata := List.map_injective_iff.mpr char_toNat_injective he
  rw [String.data_append, String.data_append] at hdata
  have hstr := List.append_cancel_left hdata
  have hrepr : Nat.repr n = Nat.repr m := by
    have hts : toString n = toString m := by
      apply String.ext
      exact hstr
    exact hts
  exact nat_repr_injective hrepr

/-- Witness for C6 at concrete rounds. -/
theorem buildCommitment_injective_witness :
    (1 : Nat) ≠ 2 ∧ buildCommitment 1 ≠ buildCommitment 2 :=
  ⟨by decide, buildCommitment_injective 1 2 (by decide)⟩

end PokerVRF
